import Mathlib

/-!
Verification of the polyphase-filterbank arbitrary resampler kernel
(`gr-filter/lib/pfb_arb_resampler.cc`, class `pfb_arb_resampler_ccf`).

The C++ kernel is shallowly embedded over exact rationals: `float`/`double`
arithmetic on the accumulator, the rates and the taps is idealised as `ℚ`,
complex samples (`gr_complex`) are modelled as pairs `ℚ × ℚ`, and the
possibly non-terminating `filter` loop nest is given a fuel parameter
(`none` = fuel exhausted, i.e. the C loop is still running).
-/

/-- Truncation toward zero, the semantics of C's `(int)` cast and of the
integral part used by `fmodf`. -/
def qtrunc (x : ℚ) : ℤ := if 0 ≤ x then ⌊x⌋ else ⌈x⌉

/-- Model of `fmodf(x, 1.0)`: `x - trunc(x)` (C `fmod` truncates toward zero). -/
def fmod1 (x : ℚ) : ℚ := x - qtrunc x

/-- The exact rational value of the IEEE-754 double constant `M_PI`
(`0x400921FB54442D18` = 884279719003555 / 2^48), used by `set_phase`. -/
def mPI : ℚ := 884279719003555 / 281474976710656

/-- Modelled from the spec: `fir_filter_ccf::filter` (its source is not part
of this repository; the spec describes it as "one complex sample = dot product
of its real taps against the complex samples starting at the given offset into
the caller-owned input buffer").  `firDot taps input off` is that dot product:
`∑ k, taps[k] • input (off + k)`. -/
def firDot : List ℚ → (ℕ → ℚ × ℚ) → ℕ → ℚ × ℚ
  | [], _, _ => (0, 0)
  | t :: ts, input, off =>
    let rest := firDot ts input (off + 1)
    (t * (input off).1 + rest.1, t * (input off).2 + rest.2)

/-- The persistent state of `pfb_arb_resampler_ccf`:
`N = d_int_rate`, `dec = d_dec_rate`, `flt = d_flt_rate`, `acc = d_acc`,
`lastFilter = d_last_filter`; `fbank`/`dbank` are the tap vectors held by
`d_filters`/`d_diff_filters` (indexed by filter number), `tpf` is
`d_taps_per_filter`. -/
structure Engine where
  N : ℕ
  dec : ℕ
  flt : ℚ
  acc : ℚ
  lastFilter : ℕ
  fbank : List (List ℚ)
  dbank : List (List ℚ)
  tpf : ℕ
deriving DecidableEq

/-- The local variables of `pfb_arb_resampler_ccf::filter` together with the
members it mutates while running: `i` (outputs written so far, also the next
output index), `count` (input cursor), `j` (current filter index), `acc`
(the live value of `d_acc`), and `out`, the samples written to `output[0..i)`. -/
structure LoopSt where
  i : ℕ
  count : ℕ
  j : ℕ
  acc : ℚ
  out : List (ℚ × ℚ)
deriving DecidableEq

/-- One iteration of the inner `while(j < d_int_rate)` body of `filter`:
`o0 = d_filters[j]->filter(&input[count])`,
`o1 = d_diff_filters[j]->filter(&input[count])`,
`output[i] = o0 + o1*d_acc; i++;`
`d_acc += d_flt_rate; j += d_dec_rate + (int)floor(d_acc);`
`d_acc = fmodf(d_acc, 1.0);`.
The `(int)floor(d_acc)` summand is cast with `Int.toNat`; in every state the
kernel reaches here `d_acc ≥ 0`, where the cast is exact. -/
def innerBody (e : Engine) (input : ℕ → ℚ × ℚ) (s : LoopSt) : LoopSt :=
  let o0 := firDot (e.fbank.getD s.j []) input s.count
  let o1 := firDot (e.dbank.getD s.j []) input s.count
  let acc1 := s.acc + e.flt
  { i := s.i + 1
    count := s.count
    j := s.j + e.dec + (⌊acc1⌋).toNat
    acc := fmod1 acc1
    out := s.out ++ [(o0.1 + o1.1 * s.acc, o0.2 + o1.2 * s.acc)] }

/-- The inner `while(j < d_int_rate)` loop of `filter`, bounded by fuel. -/
def innerLoop (e : Engine) (input : ℕ → ℚ × ℚ) : ℕ → LoopSt → Option LoopSt
  | 0, _ => none
  | fuel + 1, s =>
    if s.j < e.N then innerLoop e input fuel (innerBody e input s) else some s

/-- The outer `while(i < nitems)` loop of `filter`: run the inner loop, then
`count += (int)(j / d_int_rate); j = j % d_int_rate;`.  `fi` is the fuel given
to each inner-loop run, the first argument the fuel for outer iterations. -/
def outerLoop (e : Engine) (input : ℕ → ℚ × ℚ) (fi : ℕ) : ℕ → ℤ → LoopSt → Option LoopSt
  | 0, _, _ => none
  | fo + 1, nitems, s =>
    if (s.i : ℤ) < nitems then
      match innerLoop e input fi s with
      | none => none
      | some s1 =>
        outerLoop e input fi fo nitems { s1 with count := s1.count + s1.j / e.N, j := s1.j % e.N }
    else some s

/-- The entry state of `filter`: `i = 0, count = 0, j = d_last_filter`. -/
def initSt (e : Engine) : LoopSt :=
  { i := 0, count := 0, j := e.lastFilter, acc := e.acc, out := [] }

/-- `pfb_arb_resampler_ccf::filter(output, input, nitems)` with the given fuel.
On completion it returns the samples written to `output`, the final input
cursor `count` (the number of input samples consumed), and the engine with
`d_last_filter = j` and the final `d_acc` persisted.  The C function is
declared `int` but has no return statement (it falls off the end), so no
return value is modelled. -/
def filterF (fuel : ℕ) (e : Engine) (input : ℕ → ℚ × ℚ) (nitems : ℤ) :
    Option (List (ℚ × ℚ) × ℕ × Engine) :=
  (outerLoop e input fuel fuel nitems (initSt e)).map fun s =>
    (s.out, s.count, { e with lastFilter := s.j, acc := s.acc })

/-- `filter` terminates on the given arguments (some fuel suffices). -/
def FilterTerminates (e : Engine) (input : ℕ → ℚ × ℚ) (nitems : ℤ) : Prop :=
  ∃ fuel, (filterF fuel e input nitems).isSome

/-- `pfb_arb_resampler_ccf::set_rate`:
`d_dec_rate = (unsigned int)floor(d_int_rate/rate);`
`d_flt_rate = (d_int_rate/rate) - d_dec_rate;`.
The float-to-unsigned cast is undefined behaviour in C for a negative or
infinite operand (the kernel does not guard `rate ≤ 0`); the model clamps
with `Int.toNat`, which is exact whenever `rate > 0`. -/
def setRate (e : Engine) (rate : ℚ) : Engine :=
  let q := (e.N : ℚ) / rate
  let d : ℕ := (⌊q⌋).toNat
  { e with dec := d, flt := q - (d : ℚ) }

/-- `pfb_arb_resampler_ccf::set_phase`: throws (`none`) iff
`ph < 0 || ph >= 2.0*M_PI`, else
`d_last_filter = static_cast<int>(ph / (2.0*M_PI / d_filters.size()))`. -/
def setPhase (e : Engine) (ph : ℚ) : Option Engine :=
  if ph < 0 ∨ 2 * mPI ≤ ph then none
  else some { e with lastFilter := (qtrunc (ph / (2 * mPI / (e.fbank.length : ℚ)))).toNat }

/-- `phase()`: `d_last_filter * (2π / d_filters.size())`. -/
def phaseOf (e : Engine) : ℚ := (e.lastFilter : ℚ) * (2 * mPI / (e.fbank.length : ℚ))

/-- `d_taps_per_filter = (unsigned int)ceil((double)ntaps/(double)d_int_rate)`
from `create_taps`. -/
def tapsPerFilter (N L : ℕ) : ℕ := (Int.ceil ((L : ℚ) / (N : ℚ))).toNat

/-- The `tmp_taps` vector of `create_taps`: the prototype zero-padded (by the
`while` push-back loop) to length `d_int_rate * d_taps_per_filter`. -/
def paddedTaps (N : ℕ) (newtaps : List ℚ) : List ℚ :=
  newtaps ++ List.replicate (N * tapsPerFilter N newtaps.length - newtaps.length) 0

/-- The `ourtaps` matrix built by `create_taps`: row `d_int_rate - 1 - i`
holds `tmp_taps[i + j*d_int_rate]` for `j < d_taps_per_filter`
(`i = 0 .. N-1`).  Written as a function of the row index `p = N - 1 - i`
(so the stride offset is `i = N - 1 - p`); `i ↦ N-1-i` is an involution on
`[0, N)`, so the rows assigned are exactly those of the source loop. -/
def createTaps (N : ℕ) (newtaps : List ℚ) : List (List ℚ) :=
  let tpf := tapsPerFilter N newtaps.length
  let tmp := paddedTaps N newtaps
  List.ofFn fun p : Fin N =>
    List.ofFn fun jj : Fin tpf => tmp.getD ((N - 1 - p.val) + jj.val * N) 0

/-- The taps as held by the filter objects: `create_taps` runs
`ourfilter[i]->set_taps(ourtaps[d_int_rate-1-i])`, so filter `i` holds row
`N - 1 - i` of the `ourtaps` matrix. -/
def bankTaps (N : ℕ) (newtaps : List ℚ) : List (List ℚ) :=
  List.ofFn fun i : Fin N => (createTaps N newtaps).getD (N - 1 - i.val) []

/-- `pfb_arb_resampler_ccf::create_diff_taps`: pushes
`newtaps[i+1] - newtaps[i]` for `i < size-1`, then pushes the last computed
difference once more.  For `size < 2` the C code reads an uninitialised
variable or out of bounds (undefined); the model then appends `0`. -/
def createDiffTaps (newtaps : List ℚ) : List ℚ :=
  let diffs := List.ofFn fun i : Fin (newtaps.length - 1) =>
    newtaps.getD (i.val + 1) 0 - newtaps.getD i.val 0
  diffs ++ [diffs.getD (newtaps.length - 2) 0]

/-- `pfb_arb_resampler_ccf::set_taps`: rebuilds both banks, the derivative
bank from `create_diff_taps` of the prototype.  `d_taps_per_filter` is set
last by the `create_taps` call on the derivative taps. -/
def setTaps (e : Engine) (taps : List ℚ) : Engine :=
  { e with
    fbank := bankTaps e.N taps
    dbank := bankTaps e.N (createDiffTaps taps)
    tpf := tapsPerFilter e.N (createDiffTaps taps).length }

/-- The constructor `pfb_arb_resampler_ccf(rate, taps, filter_size)`:
`d_acc = 0`, `d_int_rate = filter_size`, `set_rate(rate)`,
`d_last_filter = 0`, banks of `filter_size` empty-tap filters
(`std::vector<float> vtaps(0, d_int_rate)` constructs zero elements),
then `set_taps(taps)`. -/
def mkEngine (rate : ℚ) (taps : List ℚ) (filterSize : ℕ) : Engine :=
  setTaps
    (setRate
      { N := filterSize, dec := 0, flt := 0, acc := 0, lastFilter := 0,
        fbank := List.replicate filterSize [], dbank := List.replicate filterSize [],
        tpf := 0 }
      rate)
    taps

/-- The documented state invariant: `currentFilterIndex ∈ [0, N)` and
`fractionalAccumulator ∈ [0, 1)`. -/
def StInv (e : Engine) : Prop := e.lastFilter < e.N ∧ 0 ≤ e.acc ∧ e.acc < 1

instance (e : Engine) : Decidable (StInv e) := by
  unfold StInv; infer_instance

/-- Engine with only the streaming state replaced (helper for stating how the
`filter` loop threads `d_last_filter` and `d_acc`). -/
def withJA (e : Engine) (j : ℕ) (a : ℚ) : Engine := { e with lastFilter := j, acc := a }

/-- One output sample of the pure-decimation regime (`d_dec_rate ≥ d_int_rate`):
the inner loop runs exactly once, then the cursor/mod step fires. -/
def stepS (e : Engine) (input : ℕ → ℚ × ℚ) (c : ℕ) : (ℚ × ℚ) × ℕ × Engine :=
  let o0 := firDot (e.fbank.getD e.lastFilter []) input c
  let o1 := firDot (e.dbank.getD e.lastFilter []) input c
  let acc1 := e.acc + e.flt
  let j1 := e.lastFilter + e.dec + (⌊acc1⌋).toNat
  ((o0.1 + o1.1 * e.acc, o0.2 + o1.2 * e.acc), c + j1 / e.N, withJA e (j1 % e.N) (fmod1 acc1))

/-- `n` consecutive output samples of the pure-decimation regime, threading
the engine state and the input cursor. -/
def decRun (input : ℕ → ℚ × ℚ) : ℕ → Engine → ℕ → List (ℚ × ℚ) × ℕ × Engine
  | 0, e, c => ([], c, e)
  | n + 1, e, c =>
    let r := stepS e input c
    let rest := decRun input n r.2.2 r.2.1
    (r.1 :: rest.1, rest.2.1, rest.2.2)

/-- The loop state reached after `n` pure-decimation outer iterations of
`filter`, starting from output index `ii`, cursor `cc`, filter index `jc`,
accumulator `ac` and already-written samples `outAcc` (phrased through
`decRun`). -/
def decLoopSt (e : Engine) (input : ℕ → ℚ × ℚ) (n ii cc jc : ℕ) (ac : ℚ)
    (outAcc : List (ℚ × ℚ)) : LoopSt :=
  { i := ii + n
    count := (decRun input n (withJA e jc ac) cc).2.1
    j := (decRun input n (withJA e jc ac) cc).2.2.lastFilter
    acc := (decRun input n (withJA e jc ac) cc).2.2.acc
    out := outAcc ++ (decRun input n (withJA e jc ac) cc).1 }

/-- Fuel that makes every inner-loop run of `filter` finish, when each
iteration advances `j + d_acc` by `d_dec_rate + d_flt_rate > 0`. -/
def suffFuel (e : Engine) : ℕ :=
  (Int.ceil (((e.N : ℚ) + 1) / ((e.dec : ℚ) + e.flt))).toNat + 1

/-- All-zero input stream. -/
def zin : ℕ → ℚ × ℚ := fun _ => (0, 0)

/-- Concrete engine exhibiting the output-count overshoot of `filter`:
`N = 4`, `d_dec_rate = 1` (e.g. from `set_rate(4)` with `filter_size = 4`),
`d_flt_rate = 0`, fresh streaming state, empty filter banks. -/
def eC1 : Engine :=
  { N := 4, dec := 1, flt := 0, acc := 0, lastFilter := 0,
    fbank := List.replicate 4 [], dbank := List.replicate 4 [],
    tpf := 0 }

/-- The degenerate engine state named by the spec:
`decimationRate == 0 ∧ fractionalRate == 0`. -/
def eDeg : Engine :=
  { N := 4, dec := 0, flt := 0, acc := 0, lastFilter := 0,
    fbank := List.replicate 4 [], dbank := List.replicate 4 [],
    tpf := 0 }

/-- A small live engine used by witnesses: `N = 3`, `d_dec_rate = 2`,
`d_flt_rate = 1/2`, mid-stream state. -/
def eW1 : Engine :=
  { N := 3, dec := 2, flt := 1/2, acc := 1/4, lastFilter := 1,
    fbank := List.replicate 3 [], dbank := List.replicate 3 [],
    tpf := 0 }

/-- A pure-decimation witness engine: `N = 2`, `d_dec_rate = 2`
(`set_rate(1)` with `filter_size = 2`). -/
def eW2 : Engine :=
  { N := 2, dec := 2, flt := 0, acc := 0, lastFilter := 0,
    fbank := [[1], [1]], dbank := [[0], [0]],
    tpf := 1 }

/-- Four zero samples (the output of `eC1` runs on the all-zero input). -/
def z4 : List (ℚ × ℚ) := List.replicate 4 (0, 0)

theorem fmod1_eq_fract (x : ℚ) (h : 0 ≤ x) : fmod1 x = Int.fract x := by
  unfold fmod1 qtrunc
  rw [if_pos h]
  rfl

theorem fmod1_nonneg (x : ℚ) (h : 0 ≤ x) : 0 ≤ fmod1 x := by
  rw [fmod1_eq_fract x h]; exact Int.fract_nonneg x

theorem fmod1_lt_one (x : ℚ) (h : 0 ≤ x) : fmod1 x < 1 := by
  rw [fmod1_eq_fract x h]; exact Int.fract_lt_one x

theorem ofFn_getD {α : Type} {n : ℕ} (f : Fin n → α) (d : α) (i : ℕ) (hi : i < n) :
    (List.ofFn f).getD i d = f ⟨i, hi⟩ := by
  rw [List.getD_eq_getElem?_getD, List.getElem?_ofFn]
  simp [List.ofFnNthVal, hi]

/-- C10: for every `nitems ≤ 0`, `filter(output, input, nitems)` writes no
output samples, consumes no input, and leaves the whole engine state
unchanged (the outer `while(i < nitems)` guard fails immediately and
`d_last_filter = j` writes back the value it started from). -/
theorem filter_nonpositive (e : Engine) (input : ℕ → ℚ × ℚ) (nitems : ℤ) (fuel : ℕ)
    (hn : nitems ≤ 0) (hf : 1 ≤ fuel) :
    filterF fuel e input nitems = some ([], 0, e) := by
  obtain ⟨f, rfl⟩ : ∃ f, fuel = f + 1 := ⟨fuel - 1, by omega⟩
  have h0 : ¬ (((initSt e).i : ℤ) < nitems) := by
    simp only [initSt]
    omega
  simp only [filterF, outerLoop, h0, if_neg, Option.map_some']
  rfl

theorem filter_nonpositive_witness :
    (-1 : ℤ) ≤ 0 ∧ (1 : ℕ) ≤ 1 ∧ filterF 1 eW1 zin (-1) = some ([], 0, eW1) :=
  ⟨by decide, by decide, filter_nonpositive eW1 zin (-1) 1 (by decide) (by decide)⟩

/-- C1 (evaluation at the failing input): with `N = 4`, `d_dec_rate = 1`,
`d_flt_rate = 0` and a fresh streaming state, `filter` asked for `nitems = 2`
output samples writes 4 of them — the inner loop does not check `i < nitems`
and keeps writing until the filter index wraps past the bank.  (The function
additionally falls off the end of a non-void function, so it does not return
the produced count.) -/
theorem filter_overrun_eval :
    filterF 10 eC1 zin 2 = some (z4, 1, eC1) ∧ z4.length ≠ 2 := by
  constructor
  · norm_num [filterF, outerLoop, innerLoop, innerBody, initSt, fmod1, qtrunc, firDot,
      eC1, zin, z4, List.replicate]
  · decide

/-- C9 (evaluation at the failing input): `set_rate(-2)` raises nothing: it
computes `d_dec_rate` and `d_flt_rate` from `d_int_rate / rate` and returns
normally (in C the float-to-unsigned cast of the negative `floor(3/(-2))` is
undefined behaviour; the model's `Int.toNat` clamp yields 0). -/
theorem set_rate_unguarded_eval :
    setRate eW1 (-2) = { eW1 with dec := 0, flt := -(3/2 : ℚ) } := by
  norm_num [setRate, eW1, Engine.mk.injEq]

/-- C7: for every `rate > 0`, `set_rate(rate)` sets
`decimationRate = floor(N/rate)` and `fractionalRate = N/rate − decimationRate`
with `0 ≤ fractionalRate < 1`. -/
theorem set_rate_spec (e : Engine) (rate : ℚ) (hr : 0 < rate) (hN : 1 ≤ e.N) :
    ((setRate e rate).dec : ℤ) = ⌊(e.N : ℚ) / rate⌋ ∧
    (setRate e rate).flt = (e.N : ℚ) / rate - ((setRate e rate).dec : ℚ) ∧
    0 ≤ (setRate e rate).flt ∧ (setRate e rate).flt < 1 := by
  have hNq : (0 : ℚ) < (e.N : ℚ) := by exact_mod_cast hN
  have hq : (0 : ℚ) < (e.N : ℚ) / rate := div_pos hNq hr
  have hfl : 0 ≤ ⌊(e.N : ℚ) / rate⌋ := Int.floor_nonneg.mpr hq.le
  have hdec : ((setRate e rate).dec : ℤ) = ⌊(e.N : ℚ) / rate⌋ :=
    Int.toNat_of_nonneg hfl
  have hdecq : ((setRate e rate).dec : ℚ) = ((⌊(e.N : ℚ) / rate⌋ : ℤ) : ℚ) := by
    exact_mod_cast hdec
  have hflt : (setRate e rate).flt = (e.N : ℚ) / rate - ((setRate e rate).dec : ℚ) := rfl
  have hfr : Int.fract ((e.N : ℚ) / rate) = (e.N : ℚ) / rate - ((⌊(e.N : ℚ) / rate⌋ : ℤ) : ℚ) :=
    rfl
  refine ⟨hdec, hflt, ?_, ?_⟩
  · rw [hflt, hdecq, ← hfr]
    exact Int.fract_nonneg _
  · rw [hflt, hdecq, ← hfr]
    exact Int.fract_lt_one _

theorem set_rate_spec_witness :
    (0 : ℚ) < 3/2 ∧ (1 : ℕ) ≤ eW2.N ∧
    (((setRate eW2 (3/2)).dec : ℤ) = ⌊(eW2.N : ℚ) / (3/2)⌋ ∧
      (setRate eW2 (3/2)).flt = (eW2.N : ℚ) / (3/2) - ((setRate eW2 (3/2)).dec : ℚ) ∧
      0 ≤ (setRate eW2 (3/2)).flt ∧ (setRate eW2 (3/2)).flt < 1) :=
  ⟨by norm_num, by decide, set_rate_spec eW2 (3/2) (by norm_num) (by decide)⟩

/-- C8: `set_phase(ph)` throws a range error iff `ph ∉ [0, 2π)`, and for
in-range `ph` sets `currentFilterIndex = floor(ph / (2π/N))` (the C cast
`static_cast<int>` truncates, which on the nonnegative quotient is `floor`). -/
theorem set_phase_spec (e : Engine) (ph : ℚ) (hN : 1 ≤ e.N) (hFb : e.fbank.length = e.N) :
    (setPhase e ph = none ↔ ¬ (0 ≤ ph ∧ ph < 2 * mPI)) ∧
    ((0 ≤ ph ∧ ph < 2 * mPI) →
      setPhase e ph = some { e with lastFilter := (⌊ph / (2 * mPI / (e.N : ℚ))⌋).toNat }) := by
  constructor
  · constructor
    · intro hnone hin
      rcases hin with ⟨h0, h2⟩
      unfold setPhase at hnone
      rw [if_neg (by push_neg; exact ⟨h0, h2⟩)] at hnone
      exact Option.some_ne_none _ hnone
    · intro hout
      unfold setPhase
      rw [if_pos]
      rcases not_and_or.mp hout with h | h
      · exact Or.inl (not_le.mp h)
      · exact Or.inr (not_lt.mp h)
  · rintro ⟨h0, h2⟩
    unfold setPhase
    rw [if_neg (by push_neg; exact ⟨h0, h2⟩), hFb]
    have hpos : (0 : ℚ) < 2 * mPI / (e.N : ℚ) := by
      have hNq : (0 : ℚ) < (e.N : ℚ) := by exact_mod_cast hN
      have hm : (0 : ℚ) < mPI := by norm_num [mPI]
      positivity
    have harg : 0 ≤ ph / (2 * mPI / (e.N : ℚ)) := div_nonneg h0 hpos.le
    simp only [qtrunc, if_pos harg]

theorem set_phase_spec_witness :
    (1 : ℕ) ≤ eW2.N ∧ eW2.fbank.length = eW2.N ∧
    ((setPhase eW2 4 = none ↔ ¬ ((0 : ℚ) ≤ 4 ∧ (4 : ℚ) < 2 * mPI)) ∧
      (((0 : ℚ) ≤ 4 ∧ (4 : ℚ) < 2 * mPI) →
        setPhase eW2 4 =
          some { eW2 with lastFilter := (⌊(4 : ℚ) / (2 * mPI / (eW2.N : ℚ))⌋).toNat })) :=
  ⟨by decide, by decide, set_phase_spec eW2 4 (by decide) (by decide)⟩

/-- C6: for a prototype of length `L ≥ 2`, `create_diff_taps` produces a
sequence of the same length `L`, with `d[i] = taps[i+1] - taps[i]` for
`i ∈ [0, L-2]` and the final element equal to the last computed difference
`d[L-2]`. -/
theorem create_diff_taps_spec (taps : List ℚ) (hL : 2 ≤ taps.length) :
    (createDiffTaps taps).length = taps.length ∧
    (∀ i, i + 1 < taps.length →
      (createDiffTaps taps).getD i 0 = taps.getD (i + 1) 0 - taps.getD i 0) ∧
    (createDiffTaps taps).getD (taps.length - 1) 0 =
      taps.getD (taps.length - 1) 0 - taps.getD (taps.length - 2) 0 := by
  unfold createDiffTaps
  set L := taps.length with hLdef
  have hlen : (List.ofFn fun i : Fin (L - 1) =>
      taps.getD (i.val + 1) 0 - taps.getD i.val 0).length = L - 1 := List.length_ofFn _
  refine ⟨?_, ?_, ?_⟩
  · simp only [List.length_append, hlen, List.length_singleton]
    omega
  · intro i hi
    have hi' : i < L - 1 := by omega
    rw [List.getD_append _ _ _ _ (by rw [hlen]; exact hi'), ofFn_getD _ _ i hi']
  · rw [List.getD_append_right _ _ _ _ (by rw [hlen]), hlen,
      (by omega : L - 1 - (L - 1) = 0)]
    have hL2 : L - 2 < L - 1 := by omega
    have hsing : ∀ x : ℚ, ([x]).getD 0 0 = x := fun x => rfl
    rw [hsing, ofFn_getD _ _ (L - 2) hL2, (by omega : L - 2 + 1 = L - 1)]

theorem create_diff_taps_spec_witness :
    2 ≤ ([1, 4, 9, 16] : List ℚ).length ∧
    ((createDiffTaps [1, 4, 9, 16]).length = ([1, 4, 9, 16] : List ℚ).length ∧
      (∀ i, i + 1 < ([1, 4, 9, 16] : List ℚ).length →
        (createDiffTaps [1, 4, 9, 16]).getD i 0 =
          ([1, 4, 9, 16] : List ℚ).getD (i + 1) 0 - ([1, 4, 9, 16] : List ℚ).getD i 0) ∧
      (createDiffTaps [1, 4, 9, 16]).getD (([1, 4, 9, 16] : List ℚ).length - 1) 0 =
        ([1, 4, 9, 16] : List ℚ).getD (([1, 4, 9, 16] : List ℚ).length - 1) 0 -
          ([1, 4, 9, 16] : List ℚ).getD (([1, 4, 9, 16] : List ℚ).length - 2) 0) :=
  ⟨by decide, create_diff_taps_spec [1, 4, 9, 16] (by decide)⟩

theorem length_le_mul_tpf (N L : ℕ) (hN : 1 ≤ N) : L ≤ N * tapsPerFilter N L := by
  have hNq : (0 : ℚ) < (N : ℚ) := by exact_mod_cast hN
  have h1 : ((L : ℚ) / (N : ℚ)) ≤ ((⌈(L : ℚ) / (N : ℚ)⌉ : ℤ) : ℚ) := Int.le_ceil _
  have h0 : 0 ≤ ⌈(L : ℚ) / (N : ℚ)⌉ := Int.ceil_nonneg (by positivity)
  have h2 : (L : ℚ) ≤ ((⌈(L : ℚ) / (N : ℚ)⌉ : ℤ) : ℚ) * (N : ℚ) := (div_le_iff₀ hNq).mp h1
  have h3 : ((tapsPerFilter N L : ℕ) : ℤ) = ⌈(L : ℚ) / (N : ℚ)⌉ := Int.toNat_of_nonneg h0
  have h4 : (L : ℚ) ≤ ((tapsPerFilter N L : ℕ) : ℚ) * (N : ℚ) := by
    rw [show (((tapsPerFilter N L : ℕ)) : ℚ) = ((⌈(L : ℚ) / (N : ℚ)⌉ : ℤ) : ℚ) by
      exact_mod_cast h3]
    exact h2
  have h5 : L ≤ tapsPerFilter N L * N := by exact_mod_cast h4
  calc L ≤ tapsPerFilter N L * N := h5
    _ = N * tapsPerFilter N L := Nat.mul_comm _ _

theorem paddedTaps_length (N : ℕ) (taps : List ℚ) (hN : 1 ≤ N) :
    (paddedTaps N taps).length = N * tapsPerFilter N taps.length := by
  unfold paddedTaps
  rw [List.length_append, List.length_replicate]
  have := length_le_mul_tpf N taps.length hN
  omega

/-- C5: `create_taps` with bank size `N ≥ 1` gives every one of the `N`
sub-filters exactly `ceil(L/N)` coefficients (`tapsPerFilter` is the code's
`(unsigned)ceil((double)L/(double)N)`), assigns sub-filter `N-1-i` the strided
subsequence `tmp_taps[i], tmp_taps[i+N], …` of the prototype zero-padded to
length `N*ceil(L/N)`, and the inverse of the reversed-stride mapping
(`k ↦ row N-1-(k%N), column k/N`) reassembles the zero-padded prototype
exactly. -/
theorem create_taps_partition (N : ℕ) (taps : List ℚ) (hN : 1 ≤ N) :
    (createTaps N taps).length = N ∧
    (∀ p, p < N → ((createTaps N taps).getD p []).length = tapsPerFilter N taps.length) ∧
    (paddedTaps N taps).length = N * tapsPerFilter N taps.length ∧
    (∀ i jj, i < N → jj < tapsPerFilter N taps.length →
      ((createTaps N taps).getD (N - 1 - i) []).getD jj 0 =
        (paddedTaps N taps).getD (i + jj * N) 0) ∧
    (∀ k, k < N * tapsPerFilter N taps.length →
      (paddedTaps N taps).getD k 0 =
        ((createTaps N taps).getD (N - 1 - k % N) []).getD (k / N) 0) := by
  refine ⟨?_, ?_, paddedTaps_length N taps hN, ?_, ?_⟩
  · simp [createTaps]
  · intro p hp
    unfold createTaps
    rw [ofFn_getD _ _ p hp]
    simp
  · intro i jj hi hjj
    unfold createTaps
    have hp : N - 1 - i < N := by omega
    rw [ofFn_getD _ _ (N - 1 - i) hp, ofFn_getD _ _ jj hjj]
    simp only [Fin.val_mk]
    rw [(by omega : N - 1 - (N - 1 - i) = i)]
  · intro k hk
    have hkN : k % N < N := Nat.mod_lt _ (by omega)
    have hdiv : k / N < tapsPerFilter N taps.length := Nat.div_lt_of_lt_mul hk
    unfold createTaps
    have hp : N - 1 - k % N < N := by omega
    rw [ofFn_getD _ _ (N - 1 - k % N) hp, ofFn_getD _ _ (k / N) hdiv]
    simp only [Fin.val_mk]
    rw [(by omega : N - 1 - (N - 1 - k % N) = k % N), Nat.mod_add_div' k N]

theorem create_taps_partition_witness :
    (1 : ℕ) ≤ 2 ∧
    ((createTaps 2 [1, 2, 3]).length = 2 ∧
      (∀ p, p < 2 → ((createTaps 2 [1, 2, 3]).getD p []).length =
        tapsPerFilter 2 ([1, 2, 3] : List ℚ).length) ∧
      (paddedTaps 2 [1, 2, 3]).length = 2 * tapsPerFilter 2 ([1, 2, 3] : List ℚ).length ∧
      (∀ i jj, i < 2 → jj < tapsPerFilter 2 ([1, 2, 3] : List ℚ).length →
        ((createTaps 2 [1, 2, 3]).getD (2 - 1 - i) []).getD jj 0 =
          (paddedTaps 2 [1, 2, 3]).getD (i + jj * 2) 0) ∧
      (∀ k, k < 2 * tapsPerFilter 2 ([1, 2, 3] : List ℚ).length →
        (paddedTaps 2 [1, 2, 3]).getD k 0 =
          ((createTaps 2 [1, 2, 3]).getD (2 - 1 - k % 2) []).getD (k / 2) 0)) :=
  ⟨by decide, create_taps_partition 2 [1, 2, 3] (by decide)⟩

theorem innerLoop_some_inv (e : Engine) (input : ℕ → ℚ × ℚ) (hf : 0 ≤ e.flt) :
    ∀ fuel (s s1 : LoopSt), innerLoop e input fuel s = some s1 →
      0 ≤ s.acc → s.acc < 1 →
      0 ≤ s1.acc ∧ s1.acc < 1 ∧ e.N ≤ s1.j ∧ s.i ≤ s1.i ∧ (s.j < e.N → s.i + 1 ≤ s1.i) := by
  intro fuel
  induction fuel with
  | zero =>
    intro s s1 h
    simp [innerLoop] at h
  | succ f ih =>
    intro s s1 h h0 h1
    simp only [innerLoop] at h
    by_cases hj : s.j < e.N
    · rw [if_pos hj] at h
      have hacc1 : 0 ≤ s.acc + e.flt := by linarith
      have hb0 : 0 ≤ (innerBody e input s).acc := fmod1_nonneg _ hacc1
      have hb1 : (innerBody e input s).acc < 1 := fmod1_lt_one _ hacc1
      obtain ⟨c0, c1, c2, c3, c4⟩ := ih (innerBody e input s) s1 h hb0 hb1
      have hbi : (innerBody e input s).i = s.i + 1 := rfl
      refine ⟨c0, c1, c2, by omega, fun _ => by omega⟩
    · rw [if_neg hj] at h
      obtain rfl := Option.some.inj h
      exact ⟨h0, h1, Nat.le_of_not_lt hj, le_refl _, fun hc => absurd hc hj⟩

theorem outerLoop_some_inv (e : Engine) (input : ℕ → ℚ × ℚ) (fi : ℕ) (nitems : ℤ)
    (hf : 0 ≤ e.flt) :
    ∀ fo (s s1 : LoopSt), outerLoop e input fi fo nitems s = some s1 →
      0 ≤ s.acc → s.acc < 1 → s.j < e.N →
      0 ≤ s1.acc ∧ s1.acc < 1 ∧ s1.j < e.N := by
  intro fo
  induction fo with
  | zero =>
    intro s s1 h
    simp [outerLoop] at h
  | succ f ih =>
    intro s s1 h h0 h1 hj
    simp only [outerLoop] at h
    by_cases hc : (s.i : ℤ) < nitems
    · rw [if_pos hc] at h
      cases hinner : innerLoop e input fi s with
      | none =>
        rw [hinner] at h
        exact Option.noConfusion h
      | some smid =>
        rw [hinner] at h
        obtain ⟨c0, c1, c2, -, -⟩ := innerLoop_some_inv e input hf fi s smid hinner h0 h1
        have hN : 0 < e.N := lt_of_le_of_lt (Nat.zero_le _) hj
        exact ih _ s1 h c0 c1 (Nat.mod_lt _ hN)
    · rw [if_neg hc] at h
      obtain rfl := Option.some.inj h
      exact ⟨h0, h1, hj⟩

/-- C4: after construction (`mkEngine`) and after each completed operation —
`set_rate`, `set_taps`, a successful `set_phase`, a completed `filter` — the
engine state satisfies `currentFilterIndex ∈ [0, N)` and
`fractionalAccumulator ∈ [0, 1)`, maintained by the mod-`N` (`j % d_int_rate`)
and mod-1 (`fmodf(d_acc, 1.0)`) reductions of the update step itself. -/
theorem state_invariants :
    (∀ rate taps fsz, 1 ≤ fsz → StInv (mkEngine rate taps fsz)) ∧
    (∀ e rate, StInv e → StInv (setRate e rate)) ∧
    (∀ e taps, StInv e → StInv (setTaps e taps)) ∧
    (∀ e ph e1, 1 ≤ e.N → e.fbank.length = e.N → StInv e →
      setPhase e ph = some e1 → StInv e1) ∧
    (∀ e input nitems fuel out c e1, StInv e → 0 ≤ e.flt →
      filterF fuel e input nitems = some (out, c, e1) → StInv e1) := by
  refine ⟨?_, ?_, ?_, ?_, ?_⟩
  · intro rate taps fsz h
    exact ⟨h, le_refl 0, one_pos⟩
  · intro e rate h
    exact h
  · intro e taps h
    exact h
  · intro e ph e1 hN hFb hInv hsome
    unfold setPhase at hsome
    by_cases hcond : ph < 0 ∨ 2 * mPI ≤ ph
    · rw [if_pos hcond] at hsome
      exact Option.noConfusion hsome
    · rw [if_neg hcond] at hsome
      obtain rfl := Option.some.inj hsome
      push_neg at hcond
      obtain ⟨h0, h2⟩ := hcond
      refine ⟨?_, hInv.2.1, hInv.2.2⟩
      show (qtrunc (ph / (2 * mPI / (e.fbank.length : ℚ)))).toNat < e.N
      rw [hFb]
      have hNq : (0 : ℚ) < (e.N : ℚ) := by exact_mod_cast hN
      have hm : (0 : ℚ) < mPI := by norm_num [mPI]
      have hpd : (0 : ℚ) < 2 * mPI / (e.N : ℚ) := by positivity
      have hx0 : 0 ≤ ph / (2 * mPI / (e.N : ℚ)) := div_nonneg h0 hpd.le
      have hqt : qtrunc (ph / (2 * mPI / (e.N : ℚ))) = ⌊ph / (2 * mPI / (e.N : ℚ))⌋ := by
        unfold qtrunc
        rw [if_pos hx0]
      have hxlt : ph / (2 * mPI / (e.N : ℚ)) < (e.N : ℚ) := by
        rw [div_lt_iff₀ hpd]
        calc ph < 2 * mPI := h2
          _ = (e.N : ℚ) * (2 * mPI / (e.N : ℚ)) := by field_simp
      have hfl : ⌊ph / (2 * mPI / (e.N : ℚ))⌋ < (e.N : ℤ) :=
        Int.floor_lt.mpr (by exact_mod_cast hxlt)
      rw [hqt]
      omega
  · intro e input nitems fuel out c e1 hInv hf hsome
    unfold filterF at hsome
    cases houter : outerLoop e input fuel fuel nitems (initSt e) with
    | none =>
      rw [houter] at hsome
      exact Option.noConfusion hsome
    | some sfin =>
      rw [houter] at hsome
      simp only [Option.map_some', Option.some.injEq, Prod.mk.injEq] at hsome
      obtain ⟨-, -, h3⟩ := hsome
      obtain ⟨c0, c1, c2⟩ := outerLoop_some_inv e input fuel nitems hf fuel (initSt e) sfin
        houter hInv.2.1 hInv.2.2 hInv.1
      rw [← h3]
      exact ⟨c2, c0, c1⟩

theorem state_invariants_witness :
    StInv eW1 ∧ (0 : ℚ) ≤ eW1.flt ∧
    filterF 9 eW1 zin 1 = some ([(0, 0)], 1, { eW1 with lastFilter := 0, acc := 3/4 }) ∧
    StInv { eW1 with lastFilter := 0, acc := 3/4 } := by
  have hA : StInv eW1 := by norm_num [StInv, eW1]
  have hB : (0 : ℚ) ≤ eW1.flt := by norm_num [eW1]
  have hC : filterF 9 eW1 zin 1 =
      some ([(0, 0)], 1, { eW1 with lastFilter := 0, acc := 3/4 }) := by
    norm_num [filterF, outerLoop, innerLoop, innerBody, initSt, fmod1, qtrunc, firDot, eW1,
      zin, Engine.mk.injEq]
  exact ⟨hA, hB, hC, state_invariants.2.2.2.2 eW1 zin 1 9 [(0, 0)] 1 _ hA hB hC⟩

theorem innerLoop_mono (e : Engine) (input : ℕ → ℚ × ℚ) :
    ∀ f g (s s1 : LoopSt), innerLoop e input f s = some s1 → f ≤ g →
      innerLoop e input g s = some s1 := by
  intro f
  induction f with
  | zero =>
    intro g s s1 h
    simp [innerLoop] at h
  | succ f ih =>
    intro g s s1 h hfg
    obtain ⟨g0, rfl⟩ : ∃ g0, g = g0 + 1 := ⟨g - 1, by omega⟩
    simp only [innerLoop] at h ⊢
    by_cases hj : s.j < e.N
    · rw [if_pos hj] at h ⊢
      exact ih g0 _ s1 h (by omega)
    · rw [if_neg hj] at h ⊢
      exact h

theorem innerBody_measure (e : Engine) (input : ℕ → ℚ × ℚ) (s : LoopSt)
    (h0 : 0 ≤ s.acc) (hf : 0 ≤ e.flt) :
    ((innerBody e input s).j : ℚ) + (innerBody e input s).acc
      = (s.j : ℚ) + s.acc + ((e.dec : ℚ) + e.flt) := by
  have hacc1 : 0 ≤ s.acc + e.flt := by linarith
  have hflnn : 0 ≤ ⌊s.acc + e.flt⌋ := Int.floor_nonneg.mpr hacc1
  have hcast : ((⌊s.acc + e.flt⌋.toNat : ℕ) : ℚ) = ((⌊s.acc + e.flt⌋ : ℤ) : ℚ) := by
    exact_mod_cast Int.toNat_of_nonneg hflnn
  have hJ : ((innerBody e input s).j : ℚ)
      = (s.j : ℚ) + (e.dec : ℚ) + ((⌊s.acc + e.flt⌋ : ℤ) : ℚ) := by
    show (((s.j + e.dec + (⌊s.acc + e.flt⌋).toNat : ℕ)) : ℚ) = _
    push_cast
    rw [hcast]
  have hA : (innerBody e input s).acc = s.acc + e.flt - ((⌊s.acc + e.flt⌋ : ℤ) : ℚ) := by
    show fmod1 (s.acc + e.flt) = _
    rw [fmod1_eq_fract _ hacc1]
    rfl
  rw [hJ, hA]
  ring

theorem innerLoop_term (e : Engine) (input : ℕ → ℚ × ℚ) (hf : 0 ≤ e.flt) :
    ∀ (k : ℕ) (s : LoopSt), 0 ≤ s.acc → s.acc < 1 →
      ((e.N : ℚ) + 1 ≤ (s.j : ℚ) + s.acc + (k : ℚ) * ((e.dec : ℚ) + e.flt)) →
      ∃ s1, innerLoop e input (k + 1) s = some s1 := by
  intro k
  induction k with
  | zero =>
    intro s h0 h1 hm
    by_cases hj : s.j < e.N
    · exfalso
      have hjq : (s.j : ℚ) + 1 ≤ (e.N : ℚ) := by exact_mod_cast hj
      norm_num at hm
      linarith
    · exact ⟨s, by simp [innerLoop, hj]⟩
  | succ k ih =>
    intro s h0 h1 hm
    by_cases hj : s.j < e.N
    · have hacc1 : 0 ≤ s.acc + e.flt := by linarith
      have hb0 : 0 ≤ (innerBody e input s).acc := fmod1_nonneg _ hacc1
      have hb1 : (innerBody e input s).acc < 1 := fmod1_lt_one _ hacc1
      have hmeas := innerBody_measure e input s h0 hf
      have hm2 : (e.N : ℚ) + 1 ≤ ((innerBody e input s).j : ℚ) + (innerBody e input s).acc
          + (k : ℚ) * ((e.dec : ℚ) + e.flt) := by
        rw [hmeas]
        push_cast at hm
        linarith
      obtain ⟨s1, hs1⟩ := ih (innerBody e input s) hb0 hb1 hm2
      refine ⟨s1, ?_⟩
      simp only [innerLoop]
      rw [if_pos hj]
      exact hs1
    · exact ⟨s, by simp [innerLoop, hj]⟩

theorem suffFuel_spec (e : Engine) (hd : 0 < (e.dec : ℚ) + e.flt) :
    (e.N : ℚ) + 1 ≤ ((suffFuel e - 1 : ℕ) : ℚ) * ((e.dec : ℚ) + e.flt) := by
  unfold suffFuel
  rw [Nat.add_sub_cancel]
  have h0 : 0 ≤ ⌈((e.N : ℚ) + 1) / ((e.dec : ℚ) + e.flt)⌉ :=
    Int.ceil_nonneg (by positivity)
  have h1 : ((e.N : ℚ) + 1) / ((e.dec : ℚ) + e.flt)
      ≤ ((⌈((e.N : ℚ) + 1) / ((e.dec : ℚ) + e.flt)⌉ : ℤ) : ℚ) := Int.le_ceil _
  have hcast : (((⌈((e.N : ℚ) + 1) / ((e.dec : ℚ) + e.flt)⌉).toNat : ℕ) : ℚ)
      = ((⌈((e.N : ℚ) + 1) / ((e.dec : ℚ) + e.flt)⌉ : ℤ) : ℚ) := by
    exact_mod_cast Int.toNat_of_nonneg h0
  rw [hcast]
  exact (div_le_iff₀ hd).mp h1

theorem outerLoop_term (e : Engine) (input : ℕ → ℚ × ℚ) (nitems : ℤ)
    (hf : 0 ≤ e.flt) (hd : 0 < (e.dec : ℚ) + e.flt) (fi : ℕ) (hfi : suffFuel e ≤ fi) :
    ∀ (fo : ℕ) (s : LoopSt), 0 ≤ s.acc → s.acc < 1 → s.j < e.N →
      nitems ≤ (s.i : ℤ) + fo →
      ∃ s1, outerLoop e input fi (fo + 1) nitems s = some s1 := by
  intro fo
  induction fo with
  | zero =>
    intro s h0 h1 hj hni
    refine ⟨s, ?_⟩
    simp only [outerLoop]
    rw [if_neg (by omega)]
  | succ f ih =>
    intro s h0 h1 hj hni
    by_cases hc : (s.i : ℤ) < nitems
    · have hK : (e.N : ℚ) + 1 ≤ (s.j : ℚ) + s.acc
          + ((suffFuel e - 1 : ℕ) : ℚ) * ((e.dec : ℚ) + e.flt) := by
        have hs := suffFuel_spec e hd
        have hjq : (0 : ℚ) ≤ (s.j : ℚ) := by positivity
        linarith
      obtain ⟨smid, hsmid⟩ := innerLoop_term e input hf (suffFuel e - 1) s h0 h1 hK
      have hsf : suffFuel e - 1 + 1 = suffFuel e := by
        unfold suffFuel
        omega
      rw [hsf] at hsmid
      have hsm : innerLoop e input fi s = some smid :=
        innerLoop_mono e input _ fi s smid hsmid hfi
      obtain ⟨c0, c1, c2, -, c4⟩ := innerLoop_some_inv e input hf fi s smid hsm h0 h1
      have hN : 0 < e.N := lt_of_le_of_lt (Nat.zero_le _) hj
      obtain ⟨s1, hs1⟩ := ih { smid with count := smid.count + smid.j / e.N, j := smid.j % e.N }
        c0 c1 (Nat.mod_lt _ hN) (by
          show nitems ≤ (smid.i : ℤ) + f
          have := c4 hj
          omega)
      refine ⟨s1, ?_⟩
      simp only [outerLoop]
      rw [if_pos hc, hsm]
      exact hs1
    · refine ⟨s, ?_⟩
      simp only [outerLoop]
      rw [if_neg hc]

/-- C3 (amended): `filter` terminates for every engine state with
`currentFilterIndex ∈ [0, N)`, `fractionalAccumulator ∈ [0, 1)`,
`fractionalRate ≥ 0` and `decimationRate ≥ 1 ∨ fractionalRate > 0` (each
output sample then advances `j + d_acc` by the positive amount
`d_dec_rate + d_flt_rate`, so the inner loop reaches `j ≥ N` and the outer
loop reaches `i ≥ nitems`); the degenerate `decimationRate = 0 ∧
fractionalRate = 0` case, which the claim also covers, does not terminate
(see the counterexample). -/
theorem filter_terminates (e : Engine) (input : ℕ → ℚ × ℚ) (nitems : ℤ)
    (hj : e.lastFilter < e.N) (h0 : 0 ≤ e.acc) (h1 : e.acc < 1) (hf : 0 ≤ e.flt)
    (hprog : 1 ≤ e.dec ∨ 0 < e.flt) :
    FilterTerminates e input nitems := by
  have hd : 0 < (e.dec : ℚ) + e.flt := by
    rcases hprog with h | h
    · have h2 : (1 : ℚ) ≤ (e.dec : ℚ) := by exact_mod_cast h
      linarith
    · have h2 : (0 : ℚ) ≤ (e.dec : ℚ) := by positivity
      linarith
  obtain ⟨s1, hs1⟩ := outerLoop_term e input nitems hf hd
    (suffFuel e + nitems.toNat + 1) (by omega) (suffFuel e + nitems.toNat) (initSt e)
    h0 h1 hj (by
      show nitems ≤ ((initSt e).i : ℤ) + (suffFuel e + nitems.toNat)
      have hi : (initSt e).i = 0 := rfl
      rw [hi]
      have := Int.self_le_toNat nitems
      omega)
  refine ⟨suffFuel e + nitems.toNat + 1, ?_⟩
  unfold filterF
  rw [hs1]
  rfl

theorem filter_terminates_witness :
    eW1.lastFilter < eW1.N ∧ (0 : ℚ) ≤ eW1.acc ∧ eW1.acc < 1 ∧ (0 : ℚ) ≤ eW1.flt ∧
    (1 ≤ eW1.dec ∨ (0 : ℚ) < eW1.flt) ∧ FilterTerminates eW1 zin 5 :=
  ⟨by decide, by norm_num [eW1], by norm_num [eW1], by norm_num [eW1],
    Or.inl (by decide),
    filter_terminates eW1 zin 5 (by decide) (by norm_num [eW1]) (by norm_num [eW1])
      (by norm_num [eW1]) (Or.inl (by decide))⟩

theorem innerLoop_stuck (input : ℕ → ℚ × ℚ) :
    ∀ fuel (s : LoopSt), s.j = 0 → s.acc = 0 → innerLoop eDeg input fuel s = none := by
  intro fuel
  induction fuel with
  | zero =>
    intro s h1 h2
    rfl
  | succ f ih =>
    intro s h1 h2
    have hj : s.j < eDeg.N := by
      rw [h1]
      norm_num [eDeg]
    simp only [innerLoop]
    rw [if_pos hj]
    apply ih
    · show s.j + eDeg.dec + (⌊s.acc + eDeg.flt⌋).toNat = 0
      rw [h1, h2]
      norm_num [eDeg]
    · show fmod1 (s.acc + eDeg.flt) = 0
      rw [h2]
      norm_num [eDeg, fmod1, qtrunc]

/-- C3 (counterexample): in the degenerate state the claim explicitly covers
(`decimationRate == 0 ∧ fractionalRate == 0`), `filter` asked for one output
sample runs forever: the inner loop never advances `j` or `d_acc`, so no
amount of fuel completes the call. -/
theorem filter_degenerate_diverges : ¬ FilterTerminates eDeg zin 1 := by
  rintro ⟨fuel, hsome⟩
  cases fuel with
  | zero => simp [filterF, outerLoop] at hsome
  | succ f =>
    have hstuck : innerLoop eDeg zin (f + 1) (initSt eDeg) = none :=
      innerLoop_stuck zin (f + 1) (initSt eDeg) rfl rfl
    have houter : outerLoop eDeg zin (f + 1) (f + 1) 1 (initSt eDeg) = none := by
      simp only [outerLoop]
      rw [if_pos (by decide : (((initSt eDeg).i : ℕ) : ℤ) < 1), hstuck]
    unfold filterF at hsome
    rw [houter] at hsome
    simp at hsome

set_option maxHeartbeats 1600000 in
/-- C2 (counterexample): on the engine `N = 4`, `d_dec_rate = 1`,
`d_flt_rate = 0`, splitting one `filter` call of `nitems = 4` into two calls
of 2 (same instance, state and input cursor threaded through) does not
reproduce the single call: each call of 2 already writes 4 samples, so the
split run emits 8 samples while the single run emits 4. -/
theorem filter_split_cex :
    filterF 10 eC1 zin 2 = some (z4, 1, eC1) ∧
    filterF 10 eC1 (fun k => zin (1 + k)) 2 = some (z4, 1, eC1) ∧
    filterF 10 eC1 zin 4 = some (z4, 1, eC1) ∧
    z4 ++ z4 ≠ z4 := by
  refine ⟨?_, ?_, ?_, ?_⟩
  · norm_num [filterF, outerLoop, innerLoop, innerBody, initSt, fmod1, qtrunc, firDot,
      eC1, zin, z4, List.replicate]
  · norm_num [filterF, outerLoop, innerLoop, innerBody, initSt, fmod1, qtrunc, firDot,
      eC1, zin, z4, List.replicate]
  · norm_num [filterF, outerLoop, innerLoop, innerBody, initSt, fmod1, qtrunc, firDot,
      eC1, zin, z4, List.replicate]
  · intro hcontra
    have hlen := congrArg List.length hcontra
    simp [z4] at hlen

theorem inner_two (e : Engine) (input : ℕ → ℚ × ℚ) (hreg : e.N ≤ e.dec) (s : LoopSt)
    (hj : s.j < e.N) :
    innerLoop e input 2 s = some (innerBody e input s) := by
  have hj2 : ¬ (innerBody e input s).j < e.N := by
    show ¬ s.j + e.dec + (⌊s.acc + e.flt⌋).toNat < e.N
    omega
  simp only [innerLoop]
  rw [if_pos hj, if_neg hj2]

theorem decLoopSt_succ (e : Engine) (input : ℕ → ℚ × ℚ) (n ii cc jc : ℕ) (ac : ℚ)
    (outAcc : List (ℚ × ℚ)) :
    decLoopSt e input (n + 1) ii cc jc ac outAcc
      = decLoopSt e input n (ii + 1) ((stepS (withJA e jc ac) input cc).2.1)
          ((stepS (withJA e jc ac) input cc).2.2.lastFilter)
          ((stepS (withJA e jc ac) input cc).2.2.acc)
          (outAcc ++ [(stepS (withJA e jc ac) input cc).1]) := by
  have hD : decRun input (n + 1) (withJA e jc ac) cc
      = ((stepS (withJA e jc ac) input cc).1
           :: (decRun input n
                (withJA e ((stepS (withJA e jc ac) input cc).2.2.lastFilter)
                  ((stepS (withJA e jc ac) input cc).2.2.acc))
                ((stepS (withJA e jc ac) input cc).2.1)).1,
         (decRun input n
            (withJA e ((stepS (withJA e jc ac) input cc).2.2.lastFilter)
              ((stepS (withJA e jc ac) input cc).2.2.acc))
            ((stepS (withJA e jc ac) input cc).2.1)).2.1,
         (decRun input n
            (withJA e ((stepS (withJA e jc ac) input cc).2.2.lastFilter)
              ((stepS (withJA e jc ac) input cc).2.2.acc))
            ((stepS (withJA e jc ac) input cc).2.1)).2.2) := rfl
  unfold decLoopSt
  rw [hD]
  congr 1
  · omega
  · simp

theorem outer_dec (e : Engine) (input : ℕ → ℚ × ℚ) (hreg : e.N ≤ e.dec) (hN : 1 ≤ e.N)
    (hf : 0 ≤ e.flt) :
    ∀ (n fo fi : ℕ), n + 1 ≤ fo → 2 ≤ fi →
    ∀ (jc : ℕ) (ac : ℚ) (ii cc : ℕ) (outAcc : List (ℚ × ℚ)), jc < e.N → 0 ≤ ac →
      outerLoop e input fi fo ((ii : ℤ) + (n : ℤ))
          { i := ii, count := cc, j := jc, acc := ac, out := outAcc }
        = some (decLoopSt e input n ii cc jc ac outAcc) := by
  intro n
  induction n with
  | zero =>
    intro fo fi hfo hfi jc ac ii cc outAcc hjc hac
    obtain ⟨f0, rfl⟩ : ∃ f0, fo = f0 + 1 := ⟨fo - 1, by omega⟩
    have hcond : ¬ ((({ i := ii, count := cc, j := jc, acc := ac, out := outAcc } : LoopSt).i : ℤ)
        < (ii : ℤ) + ((0 : ℕ) : ℤ)) := by
      show ¬ ((ii : ℤ) < (ii : ℤ) + ((0 : ℕ) : ℤ))
      omega
    simp only [outerLoop]
    rw [if_neg hcond]
    refine congrArg some ?_
    unfold decLoopSt
    congr 1 ; simp [decRun, withJA]
  | succ n ih =>
    intro fo fi hfo hfi jc ac ii cc outAcc hjc hac
    obtain ⟨f0, rfl⟩ : ∃ f0, fo = f0 + 1 := ⟨fo - 1, by omega⟩
    have hN0 : 0 < e.N := by omega
    have hcond : ((({ i := ii, count := cc, j := jc, acc := ac, out := outAcc } : LoopSt).i : ℤ)
        < (ii : ℤ) + ((n + 1 : ℕ) : ℤ)) := by
      show ((ii : ℤ) < (ii : ℤ) + ((n + 1 : ℕ) : ℤ))
      push_cast
      omega
    have h2 : innerLoop e input 2 { i := ii, count := cc, j := jc, acc := ac, out := outAcc }
        = some (innerBody e input { i := ii, count := cc, j := jc, acc := ac, out := outAcc }) :=
      inner_two e input hreg _ hjc
    have hin : innerLoop e input fi { i := ii, count := cc, j := jc, acc := ac, out := outAcc }
        = some (innerBody e input { i := ii, count := cc, j := jc, acc := ac, out := outAcc }) :=
      innerLoop_mono e input 2 fi _ _ h2 hfi
    have hni : ((ii : ℤ) + ((n + 1 : ℕ) : ℤ)) = (((ii + 1 : ℕ) : ℤ) + (n : ℤ)) := by
      push_cast
      ring
    simp only [outerLoop]
    rw [if_pos hcond, hin, hni, decLoopSt_succ]
    exact ih f0 fi (by omega) hfi
      ((jc + e.dec + (⌊ac + e.flt⌋).toNat) % e.N) (fmod1 (ac + e.flt)) (ii + 1)
      (cc + (jc + e.dec + (⌊ac + e.flt⌋).toNat) / e.N)
      (outAcc ++ [(stepS (withJA e jc ac) input cc).1])
      (Nat.mod_lt _ hN0) (fmod1_nonneg _ (by linarith))

theorem decRun_shape (e : Engine) (input : ℕ → ℚ × ℚ) :
    ∀ (n : ℕ) (j : ℕ) (a : ℚ) (c : ℕ),
      (decRun input n (withJA e j a) c).2.2
        = withJA e ((decRun input n (withJA e j a) c).2.2.lastFilter)
            ((decRun input n (withJA e j a) c).2.2.acc) := by
  intro n
  induction n with
  | zero =>
    intro j a c
    rfl
  | succ n ih =>
    intro j a c
    exact ih ((stepS (withJA e j a) input c).2.2.lastFilter)
      ((stepS (withJA e j a) input c).2.2.acc) ((stepS (withJA e j a) input c).2.1)

theorem filterF_decRun (e : Engine) (input : ℕ → ℚ × ℚ) (n : ℕ)
    (hreg : e.N ≤ e.dec) (hN : 1 ≤ e.N) (hf : 0 ≤ e.flt)
    (hj : e.lastFilter < e.N) (hac : 0 ≤ e.acc) :
    filterF (n + 2) e input (n : ℤ)
      = some ((decRun input n e 0).1, (decRun input n e 0).2.1, (decRun input n e 0).2.2) := by
  unfold filterF initSt
  have h := outer_dec e input hreg hN hf n (n + 2) (n + 2) (by omega) (by omega)
    e.lastFilter e.acc 0 0 [] hj hac
  have hni : ((0 : ℕ) : ℤ) + (n : ℤ) = (n : ℤ) := by simp
  rw [hni] at h
  rw [h]
  simp only [Option.map_some']
  exact congrArg (fun E => some ((decRun input n e 0).1, (decRun input n e 0).2.1, E))
    (decRun_shape e input n e.lastFilter e.acc 0).symm

theorem decRun_props (e : Engine) (input : ℕ → ℚ × ℚ) (hN : 1 ≤ e.N) (hf : 0 ≤ e.flt) :
    ∀ (n : ℕ) (j : ℕ) (a : ℚ) (c : ℕ), j < e.N → 0 ≤ a → a < 1 →
      (decRun input n (withJA e j a) c).2.2.lastFilter < e.N ∧
      0 ≤ (decRun input n (withJA e j a) c).2.2.acc ∧
      (decRun input n (withJA e j a) c).2.2.acc < 1 ∧
      (decRun input n (withJA e j a) c).1.length = n := by
  intro n
  induction n with
  | zero =>
    intro j a c hj h0 h1
    exact ⟨hj, h0, h1, rfl⟩
  | succ n ih =>
    intro j a c hj h0 h1
    have hmod : (j + e.dec + (⌊a + e.flt⌋).toNat) % e.N < e.N := Nat.mod_lt _ (by omega)
    have ha0 : 0 ≤ fmod1 (a + e.flt) := fmod1_nonneg _ (by linarith)
    have ha1 : fmod1 (a + e.flt) < 1 := fmod1_lt_one _ (by linarith)
    have h := ih ((j + e.dec + (⌊a + e.flt⌋).toNat) % e.N) (fmod1 (a + e.flt))
      (c + (j + e.dec + (⌊a + e.flt⌋).toNat) / e.N) hmod ha0 ha1
    refine ⟨h.1, h.2.1, h.2.2.1, ?_⟩
    have hlen := h.2.2.2
    show ((stepS (withJA e j a) input c).1
        :: (decRun input n (withJA e ((j + e.dec + (⌊a + e.flt⌋).toNat) % e.N)
              (fmod1 (a + e.flt))) (c + (j + e.dec + (⌊a + e.flt⌋).toNat) / e.N)).1).length
      = n + 1
    rw [List.length_cons, hlen]

theorem decRun_add (input : ℕ → ℚ × ℚ) :
    ∀ (n1 n2 : ℕ) (E : Engine) (c : ℕ),
      decRun input (n1 + n2) E c
        = ((decRun input n1 E c).1
             ++ (decRun input n2 (decRun input n1 E c).2.2 (decRun input n1 E c).2.1).1,
           (decRun input n2 (decRun input n1 E c).2.2 (decRun input n1 E c).2.1).2.1,
           (decRun input n2 (decRun input n1 E c).2.2 (decRun input n1 E c).2.1).2.2) := by
  intro n1
  induction n1 with
  | zero =>
    intro n2 E c
    rw [Nat.zero_add]
    rfl
  | succ n1 ih =>
    intro n2 E c
    rw [Nat.succ_add]
    show ((stepS E input c).1
          :: (decRun input (n1 + n2) (stepS E input c).2.2 (stepS E input c).2.1).1,
         (decRun input (n1 + n2) (stepS E input c).2.2 (stepS E input c).2.1).2.1,
         (decRun input (n1 + n2) (stepS E input c).2.2 (stepS E input c).2.1).2.2) = _
    rw [ih n2 (stepS E input c).2.2 (stepS E input c).2.1]
    rfl

theorem firDot_shift (input : ℕ → ℚ × ℚ) (a : ℕ) :
    ∀ (taps : List ℚ) (off : ℕ),
      firDot taps (fun k => input (a + k)) off = firDot taps input (a + off) := by
  intro taps
  induction taps with
  | nil =>
    intro off
    rfl
  | cons t ts ih =>
    intro off
    show (t * (input (a + off)).1 + (firDot ts (fun k => input (a + k)) (off + 1)).1,
          t * (input (a + off)).2 + (firDot ts (fun k => input (a + k)) (off + 1)).2)
        = _
    rw [ih (off + 1), (by omega : a + (off + 1) = (a + off) + 1)]
    rfl

theorem stepS_shift (E : Engine) (input : ℕ → ℚ × ℚ) (a c : ℕ) :
    (stepS E (fun k => input (a + k)) c).1 = (stepS E input (a + c)).1 ∧
    a + (stepS E (fun k => input (a + k)) c).2.1 = (stepS E input (a + c)).2.1 ∧
    (stepS E (fun k => input (a + k)) c).2.2 = (stepS E input (a + c)).2.2 := by
  refine ⟨?_, ?_, rfl⟩
  · show ((firDot (E.fbank.getD E.lastFilter []) (fun k => input (a + k)) c).1
        + (firDot (E.dbank.getD E.lastFilter []) (fun k => input (a + k)) c).1 * E.acc,
        (firDot (E.fbank.getD E.lastFilter []) (fun k => input (a + k)) c).2
        + (firDot (E.dbank.getD E.lastFilter []) (fun k => input (a + k)) c).2 * E.acc)
      = ((firDot (E.fbank.getD E.lastFilter []) input (a + c)).1
        + (firDot (E.dbank.getD E.lastFilter []) input (a + c)).1 * E.acc,
        (firDot (E.fbank.getD E.lastFilter []) input (a + c)).2
        + (firDot (E.dbank.getD E.lastFilter []) input (a + c)).2 * E.acc)
    rw [firDot_shift input a _ c, firDot_shift input a _ c]
  · show a + (c + (E.lastFilter + E.dec + (⌊E.acc + E.flt⌋).toNat) / E.N)
        = (a + c) + (E.lastFilter + E.dec + (⌊E.acc + E.flt⌋).toNat) / E.N
    omega

theorem decRun_shift (input : ℕ → ℚ × ℚ) (a : ℕ) :
    ∀ (n : ℕ) (E : Engine) (c : ℕ),
      (decRun input n E (a + c)).1 = (decRun (fun k => input (a + k)) n E c).1 ∧
      (decRun input n E (a + c)).2.1 = a + (decRun (fun k => input (a + k)) n E c).2.1 ∧
      (decRun input n E (a + c)).2.2 = (decRun (fun k => input (a + k)) n E c).2.2 := by
  intro n
  induction n with
  | zero =>
    intro E c
    exact ⟨rfl, rfl, rfl⟩
  | succ n ih =>
    intro E c
    obtain ⟨hs1, hs2, hs3⟩ := stepS_shift E input a c
    refine ⟨?_, ?_, ?_⟩
    · show (stepS E input (a + c)).1
          :: (decRun input n (stepS E input (a + c)).2.2 (stepS E input (a + c)).2.1).1
        = (stepS E (fun k => input (a + k)) c).1
          :: (decRun (fun k => input (a + k)) n (stepS E (fun k => input (a + k)) c).2.2
               (stepS E (fun k => input (a + k)) c).2.1).1
      rw [← hs1, ← hs2, ← hs3]
      exact congrArg _ (ih (stepS E (fun k => input (a + k)) c).2.2
        (stepS E (fun k => input (a + k)) c).2.1).1
    · show (decRun input n (stepS E input (a + c)).2.2 (stepS E input (a + c)).2.1).2.1
        = a + (decRun (fun k => input (a + k)) n (stepS E (fun k => input (a + k)) c).2.2
            (stepS E (fun k => input (a + k)) c).2.1).2.1
      rw [← hs2, ← hs3]
      exact (ih (stepS E (fun k => input (a + k)) c).2.2
        (stepS E (fun k => input (a + k)) c).2.1).2.1
    · show (decRun input n (stepS E input (a + c)).2.2 (stepS E input (a + c)).2.1).2.2
        = (decRun (fun k => input (a + k)) n (stepS E (fun k => input (a + k)) c).2.2
            (stepS E (fun k => input (a + k)) c).2.1).2.2
      rw [← hs2, ← hs3]
      exact (ih (stepS E (fun k => input (a + k)) c).2.2
        (stepS E (fun k => input (a + k)) c).2.1).2.2

/-- C2 (amended): in the pure-decimation regime `decimationRate ≥ N` (each
output sample advances the filter index past the whole bank, so the inner
loop runs exactly once per output and `filter` writes exactly `nitems`
samples), splitting one `filter` call into two successive calls on the same
engine — state threaded through, the second call reading the input from the
cursor the first call consumed — produces exactly the concatenated output
samples, the summed input consumption, and the same final engine state
(`currentFilterIndex`, `fractionalAccumulator`) as the single call.  Outside
this regime the inner loop overshoots the requested count and splitting
produces more samples than the single call (see the counterexample). -/
theorem filter_split_exact (e : Engine) (input : ℕ → ℚ × ℚ) (n1 n2 : ℕ)
    (hreg : e.N ≤ e.dec) (hj : e.lastFilter < e.N) (h0 : 0 ≤ e.acc) (h1 : e.acc < 1)
    (hf : 0 ≤ e.flt) :
    ∃ out1 c1 e1 out2 c2 e2,
      filterF (n1 + 2) e input (n1 : ℤ) = some (out1, c1, e1) ∧
      filterF (n2 + 2) e1 (fun k => input (c1 + k)) (n2 : ℤ) = some (out2, c2, e2) ∧
      out1.length = n1 ∧ out2.length = n2 ∧
      filterF (n1 + n2 + 2) e input ((n1 : ℤ) + (n2 : ℤ))
        = some (out1 ++ out2, c1 + c2, e2) := by
  have hN : 1 ≤ e.N := by omega
  have hprops1 := decRun_props e input hN hf n1 e.lastFilter e.acc 0 hj h0 h1
  have hcall1 : filterF (n1 + 2) e input (n1 : ℤ)
      = some ((decRun input n1 e 0).1, (decRun input n1 e 0).2.1,
          (decRun input n1 e 0).2.2) :=
    filterF_decRun e input n1 hreg hN hf hj h0
  have hshape1 : (decRun input n1 e 0).2.2
      = withJA e ((decRun input n1 e 0).2.2.lastFilter) ((decRun input n1 e 0).2.2.acc) :=
    decRun_shape e input n1 e.lastFilter e.acc 0
  have he1N : (decRun input n1 e 0).2.2.N = e.N := by
    rw [hshape1]
    rfl
  have he1dec : (decRun input n1 e 0).2.2.dec = e.dec := by
    rw [hshape1]
    rfl
  have he1flt : (decRun input n1 e 0).2.2.flt = e.flt := by
    rw [hshape1]
    rfl
  have hj1 : (decRun input n1 e 0).2.2.lastFilter < (decRun input n1 e 0).2.2.N := by
    rw [he1N]
    exact hprops1.1
  have hreg1 : (decRun input n1 e 0).2.2.N ≤ (decRun input n1 e 0).2.2.dec := by
    rw [he1N, he1dec]
    exact hreg
  have hN1 : 1 ≤ (decRun input n1 e 0).2.2.N := by
    rw [he1N]
    exact hN
  have hf1 : 0 ≤ (decRun input n1 e 0).2.2.flt := by
    rw [he1flt]
    exact hf
  have hac1 : 0 ≤ (decRun input n1 e 0).2.2.acc := hprops1.2.1
  have hacl1 : (decRun input n1 e 0).2.2.acc < 1 := hprops1.2.2.1
  have hcall2 := filterF_decRun (decRun input n1 e 0).2.2
    (fun k => input ((decRun input n1 e 0).2.1 + k)) n2 hreg1 hN1 hf1 hj1 hac1
  have hprops2 := decRun_props (decRun input n1 e 0).2.2
    (fun k => input ((decRun input n1 e 0).2.1 + k)) hN1 hf1 n2
    (decRun input n1 e 0).2.2.lastFilter (decRun input n1 e 0).2.2.acc 0 hj1 hac1 hacl1
  have hcall3 : filterF (n1 + n2 + 2) e input ((n1 + n2 : ℕ) : ℤ)
      = some ((decRun input (n1 + n2) e 0).1, (decRun input (n1 + n2) e 0).2.1,
          (decRun input (n1 + n2) e 0).2.2) :=
    filterF_decRun e input (n1 + n2) hreg hN hf hj h0
  have hnc : ((n1 + n2 : ℕ) : ℤ) = (n1 : ℤ) + (n2 : ℤ) := by
    push_cast
    ring
  rw [hnc] at hcall3
  have hadd := decRun_add input n1 n2 e 0
  have hsh := decRun_shift input (decRun input n1 e 0).2.1 n2 (decRun input n1 e 0).2.2 0
  rw [Nat.add_zero] at hsh
  refine ⟨(decRun input n1 e 0).1, (decRun input n1 e 0).2.1, (decRun input n1 e 0).2.2,
    (decRun (fun k => input ((decRun input n1 e 0).2.1 + k)) n2 (decRun input n1 e 0).2.2 0).1,
    (decRun (fun k => input ((decRun input n1 e 0).2.1 + k)) n2 (decRun input n1 e 0).2.2 0).2.1,
    (decRun (fun k => input ((decRun input n1 e 0).2.1 + k)) n2 (decRun input n1 e 0).2.2 0).2.2,
    hcall1, hcall2, hprops1.2.2.2, hprops2.2.2.2, ?_⟩
  rw [hcall3, hadd, hsh.1, hsh.2.1, hsh.2.2]

theorem filter_split_exact_witness :
    eW2.N ≤ eW2.dec ∧ eW2.lastFilter < eW2.N ∧ (0 : ℚ) ≤ eW2.acc ∧ eW2.acc < 1 ∧
    (0 : ℚ) ≤ eW2.flt ∧
    (∃ out1 c1 e1 out2 c2 e2,
      filterF (1 + 2) eW2 zin ((1 : ℕ) : ℤ) = some (out1, c1, e1) ∧
      filterF (1 + 2) e1 (fun k => zin (c1 + k)) ((1 : ℕ) : ℤ) = some (out2, c2, e2) ∧
      out1.length = 1 ∧ out2.length = 1 ∧
      filterF (1 + 1 + 2) eW2 zin (((1 : ℕ) : ℤ) + ((1 : ℕ) : ℤ))
        = some (out1 ++ out2, c1 + c2, e2)) :=
  ⟨by decide, by decide, by norm_num [eW2], by norm_num [eW2], by norm_num [eW2],
    filter_split_exact eW2 zin 1 1 (by decide) (by decide) (by norm_num [eW2])
      (by norm_num [eW2]) (by norm_num [eW2])⟩
